import Mathlib

/-!
Shallow embedding of `src/bisection_method.py` (the bisection root-finding
solver).  Numeric semantics are modelled over `ℚ` (exact arithmetic in place
of IEEE doubles).  Python runtime faults are modelled explicitly: float
division by zero raises `ZeroDivisionError`, and returning the loop variable
`c` after a loop that never ran raises `NameError`; both are `Fault` values
of an `Except` result.
-/

/-- The example function of the source file: `f(x) = x³ - 2x² - 5x + 6`. -/
def f (x : ℚ) : ℚ := x ^ 3 - 2 * x ^ 2 - 5 * x + 6

/-- Runtime faults the Python code can raise inside `bisection_method`:
`divisionByZero` models `ZeroDivisionError` from `(c - c_old) / c` when
`c == 0`, and `nameError` models `NameError` from `return c` when the
loop body never executed. -/
inductive Fault where
  | divisionByZero
  | nameError
deriving DecidableEq, Repr

/-- One row of the iteration table: iteration index (1-based), the current
endpoints `a`, `b`, the midpoint `c`, the function values at all three, and
the relative percentage error versus the previous midpoint. -/
structure IterationRecord where
  iteration : ℕ
  a : ℚ
  b : ℚ
  c : ℚ
  f_a : ℚ
  f_b : ℚ
  f_c : ℚ
  error : ℚ
deriving DecidableEq, Repr

/-- `error = abs((c - c_old) / c) * 100 if i > 0 else 100` (only evaluated
when the division is defined; the loop faults first otherwise). -/
def relError (i : ℕ) (c c_old : ℚ) : ℚ :=
  if 0 < i then |(c - c_old) / c| * 100 else 100

/-- The record appended to the trace by iteration `i` (0-based `i`, recorded
1-based) from current endpoints `a`, `b` and previous midpoint `c_old`. -/
def mkRecord (func : ℚ → ℚ) (i : ℕ) (a b c_old : ℚ) : IterationRecord :=
  ⟨i + 1, a, b, (a + b) / 2, func a, func b, func ((a + b) / 2),
    relError i ((a + b) / 2) c_old⟩

/-- The `for i in range(max_iterations)` loop of `bisection_method`.
`fuel` is the number of loop iterations still allowed, `i` the 0-based
index of the current iteration.  Returns the midpoint the Python code
would return together with the list of records appended to the trace. -/
def bisectLoop (func : ℚ → ℚ) (tol : ℚ) :
    ℕ → ℕ → ℚ → ℚ → ℚ → Except Fault (ℚ × List IterationRecord)
  | 0, _, _, _, _ => Except.error Fault.nameError
  | fuel + 1, i, a, b, c_old =>
    if 0 < i ∧ (a + b) / 2 = 0 then Except.error Fault.divisionByZero
    else if |func ((a + b) / 2)| < tol ∨ relError i ((a + b) / 2) c_old < tol then
      Except.ok ((a + b) / 2, [mkRecord func i a b c_old])
    else if fuel = 0 then
      Except.ok ((a + b) / 2, [mkRecord func i a b c_old])
    else if func a * func ((a + b) / 2) < 0 then
      (bisectLoop func tol fuel (i + 1) a ((a + b) / 2) ((a + b) / 2)).map
        (fun p => (p.1, mkRecord func i a b c_old :: p.2))
    else
      (bisectLoop func tol fuel (i + 1) ((a + b) / 2) b ((a + b) / 2)).map
        (fun p => (p.1, mkRecord func i a b c_old :: p.2))

/-- `bisection_method(func, a, b, tolerance, max_iterations)` from the
source.  The Python function returns `(None, None)` when the bracket check
fails (modelled as `(none, [])`: no root estimate, empty trace), raises
`NameError` when a valid bracket is given but the loop never runs
(`max_iterations <= 0`), and otherwise returns the final midpoint and the
iteration table. -/
def bisection_method (func : ℚ → ℚ) (a b : ℚ) (tolerance : ℚ)
    (max_iterations : ℤ) : Except Fault (Option ℚ × List IterationRecord) :=
  if func a * func b ≥ 0 then Except.ok (none, [])
  else if max_iterations ≤ 0 then Except.error Fault.nameError
  else
    match bisectLoop func tolerance max_iterations.toNat 0 a b a with
    | Except.error e => Except.error e
    | Except.ok (root, trace) => Except.ok (some root, trace)

/-- Concrete three-iteration trace of the solver on `func(x) = x` over the
bracket `(-1, 2)` with tolerance `1/10` and budget `3`, used to evaluate the
general theorems on a concrete run. -/
def idTrace : List IterationRecord :=
  [⟨1, -1, 2, 1 / 2, -1, 2, 1 / 2, 100⟩,
   ⟨2, -1, 1 / 2, -1 / 4, -1, 1 / 2, -1 / 4, 300⟩,
   ⟨3, -1 / 4, 1 / 2, 1 / 8, -1 / 4, 1 / 2, 1 / 8, 300⟩]

/-- Relation between consecutive trace records: the later record's bracket
arises from the earlier one by the bisection update (one endpoint is kept,
the other becomes the earlier midpoint), and its error field is the relative
percentage error of its midpoint versus the earlier midpoint. -/
def StepFrom (r s : IterationRecord) : Prop :=
  ((s.a = r.a ∧ s.b = r.c) ∨ (s.a = r.c ∧ s.b = r.b)) ∧
    s.error = |(s.c - r.c) / s.c| * 100

lemma bisectLoop_ok_succ {func : ℚ → ℚ} {tol : ℚ} {fuel i : ℕ} {a b c_old root : ℚ}
    {trace : List IterationRecord}
    (h : bisectLoop func tol (fuel + 1) i a b c_old = Except.ok (root, trace)) :
    (root = (a + b) / 2 ∧ trace = [mkRecord func i a b c_old] ∧
        ((|func ((a + b) / 2)| < tol ∨ relError i ((a + b) / 2) c_old < tol) ∨ fuel = 0)) ∨
      (¬(|func ((a + b) / 2)| < tol ∨ relError i ((a + b) / 2) c_old < tol) ∧ fuel ≠ 0 ∧
        ∃ rest, trace = mkRecord func i a b c_old :: rest ∧
          ((func a * func ((a + b) / 2) < 0 ∧
              bisectLoop func tol fuel (i + 1) a ((a + b) / 2) ((a + b) / 2) =
                Except.ok (root, rest)) ∨
            (¬func a * func ((a + b) / 2) < 0 ∧
              bisectLoop func tol fuel (i + 1) ((a + b) / 2) b ((a + b) / 2) =
                Except.ok (root, rest)))) := by
  rw [bisectLoop] at h
  split_ifs at h with h0 hconv hfuel hsign
  · simp only [Except.ok.injEq, Prod.mk.injEq] at h
    exact Or.inl ⟨h.1.symm, h.2.symm, Or.inl hconv⟩
  · simp only [Except.ok.injEq, Prod.mk.injEq] at h
    exact Or.inl ⟨h.1.symm, h.2.symm, Or.inr hfuel⟩
  · cases hrec : bisectLoop func tol fuel (i + 1) a ((a + b) / 2) ((a + b) / 2) with
    | error e => rw [hrec] at h; exact absurd h (by simp [Except.map])
    | ok p =>
      obtain ⟨root', rest⟩ := p
      rw [hrec] at h
      simp only [Except.map, Except.ok.injEq, Prod.mk.injEq] at h
      refine Or.inr ⟨hconv, hfuel, rest, h.2.symm, Or.inl ⟨hsign, ?_⟩⟩
      rw [h.1]
  · cases hrec : bisectLoop func tol fuel (i + 1) ((a + b) / 2) b ((a + b) / 2) with
    | error e => rw [hrec] at h; exact absurd h (by simp [Except.map])
    | ok p =>
      obtain ⟨root', rest⟩ := p
      rw [hrec] at h
      simp only [Except.map, Except.ok.injEq, Prod.mk.injEq] at h
      refine Or.inr ⟨hconv, hfuel, rest, h.2.symm, Or.inr ⟨hsign, ?_⟩⟩
      rw [h.1]

lemma bisection_method_ok_inv {func : ℚ → ℚ} {a b tolerance : ℚ} {max_iterations : ℤ}
    {root : ℚ} {trace : List IterationRecord}
    (h : bisection_method func a b tolerance max_iterations =
      Except.ok (some root, trace)) :
    func a * func b < 0 ∧ 0 < max_iterations ∧
      bisectLoop func tolerance max_iterations.toNat 0 a b a = Except.ok (root, trace) := by
  rw [bisection_method] at h
  split_ifs at h with hbr hm
  · exact absurd h (by simp)
  · refine ⟨lt_of_not_ge hbr, lt_of_not_le hm, ?_⟩
    cases hrec : bisectLoop func tolerance max_iterations.toNat 0 a b a with
    | error e => rw [hrec] at h; exact absurd h (by simp)
    | ok p =>
      obtain ⟨root', trace'⟩ := p
      rw [hrec] at h
      simp only [Except.ok.injEq, Prod.mk.injEq, Option.some.injEq] at h
      rw [h.1, h.2]

lemma getLastD_mem_self {α : Type} {l : List α} (h : l ≠ []) (d : α) :
    l.getLastD d ∈ l := by
  cases l with
  | nil => exact absurd rfl h
  | cons x xs =>
    have hx : (x :: xs).getLastD d = (x :: xs).getLast (by simp) := rfl
    rw [hx]
    exact List.getLast_mem _

lemma bisectLoop_len {func : ℚ → ℚ} {tol : ℚ} {fuel : ℕ} :
    ∀ {i : ℕ} {a b c_old root : ℚ} {trace : List IterationRecord},
      bisectLoop func tol fuel i a b c_old = Except.ok (root, trace) →
      0 < trace.length ∧ trace.length ≤ fuel := by
  induction fuel with
  | zero => intro i a b c_old root trace h; simp [bisectLoop] at h
  | succ fuel ih =>
    intro i a b c_old root trace h
    rcases bisectLoop_ok_succ h with ⟨_, htr, _⟩ | ⟨_, _, rest, htr, hrec⟩
    · subst htr; simp
    · subst htr
      rcases hrec with ⟨_, hrec⟩ | ⟨_, hrec⟩ <;>
        · obtain ⟨h1, h2⟩ := ih hrec
          simp only [List.length_cons]
          omega

lemma bisectLoop_first {func : ℚ → ℚ} {tol : ℚ} {fuel i : ℕ} {a b c_old root : ℚ}
    {trace : List IterationRecord}
    (h : bisectLoop func tol fuel i a b c_old = Except.ok (root, trace)) :
    ∀ h0 : 0 < trace.length, trace.get ⟨0, h0⟩ = mkRecord func i a b c_old := by
  cases fuel with
  | zero => simp [bisectLoop] at h
  | succ fuel =>
    rcases bisectLoop_ok_succ h with ⟨_, htr, _⟩ | ⟨_, _, rest, htr, _⟩ <;>
      subst htr <;> intro h0 <;> rfl

lemma bisectLoop_head {func : ℚ → ℚ} {tol : ℚ} {fuel i : ℕ} {a b c_old root : ℚ}
    {trace : List IterationRecord}
    (h : bisectLoop func tol fuel i a b c_old = Except.ok (root, trace)) :
    trace.head? = some (mkRecord func i a b c_old) := by
  cases fuel with
  | zero => simp [bisectLoop] at h
  | succ fuel =>
    rcases bisectLoop_ok_succ h with ⟨_, htr, _⟩ | ⟨_, _, rest, htr, _⟩ <;>
      subst htr <;> rfl

lemma bisectLoop_root {func : ℚ → ℚ} {tol : ℚ} {fuel : ℕ} :
    ∀ {i : ℕ} {a b c_old root : ℚ} {trace : List IterationRecord}
      (d : IterationRecord),
      bisectLoop func tol fuel i a b c_old = Except.ok (root, trace) →
      root = (trace.getLastD d).c := by
  induction fuel with
  | zero => intro i a b c_old root trace d h; simp [bisectLoop] at h
  | succ fuel ih =>
    intro i a b c_old root trace d h
    rcases bisectLoop_ok_succ h with ⟨hroot, htr, _⟩ | ⟨_, _, rest, htr, hrec⟩
    · subst htr
      rw [List.getLastD_cons, List.getLastD_nil]
      simpa [mkRecord] using hroot
    · subst htr
      rw [List.getLastD_cons]
      rcases hrec with ⟨_, hrec⟩ | ⟨_, hrec⟩ <;> exact ih _ hrec

lemma bisectLoop_last_conv {func : ℚ → ℚ} {tol : ℚ} {fuel : ℕ} :
    ∀ {i : ℕ} {a b c_old root : ℚ} {trace : List IterationRecord}
      (d : IterationRecord),
      bisectLoop func tol fuel i a b c_old = Except.ok (root, trace) →
      (|(trace.getLastD d).f_c| < tol ∨ (trace.getLastD d).error < tol) ∨
        trace.length = fuel := by
  induction fuel with
  | zero => intro i a b c_old root trace d h; simp [bisectLoop] at h
  | succ fuel ih =>
    intro i a b c_old root trace d h
    rcases bisectLoop_ok_succ h with ⟨_, htr, hstop⟩ | ⟨_, _, rest, htr, hrec⟩
    · subst htr
      rw [List.getLastD_cons, List.getLastD_nil]
      rcases hstop with hconv | hf
      · exact Or.inl (by simpa [mkRecord] using hconv)
      · subst hf; exact Or.inr rfl
    · subst htr
      rw [List.getLastD_cons]
      simp only [List.length_cons]
      rcases hrec with ⟨_, hrec⟩ | ⟨_, hrec⟩ <;>
        · rcases ih _ hrec with hc | hl
          · exact Or.inl hc
          · exact Or.inr (by omega)

lemma bisectLoop_fields {func : ℚ → ℚ} {tol : ℚ} {fuel : ℕ} :
    ∀ {i : ℕ} {a b c_old root : ℚ} {trace : List IterationRecord},
      bisectLoop func tol fuel i a b c_old = Except.ok (root, trace) →
      ∀ r ∈ trace, r.c = (r.a + r.b) / 2 ∧ r.f_a = func r.a ∧ r.f_b = func r.b ∧
        r.f_c = func r.c := by
  induction fuel with
  | zero => intro i a b c_old root trace h; simp [bisectLoop] at h
  | succ fuel ih =>
    intro i a b c_old root trace h
    rcases bisectLoop_ok_succ h with ⟨_, htr, _⟩ | ⟨_, _, rest, htr, hrec⟩
    · subst htr
      intro r hr
      simp only [List.mem_singleton] at hr
      subst hr
      exact ⟨rfl, rfl, rfl, rfl⟩
    · subst htr
      intro r hr
      rcases List.mem_cons.mp hr with hr | hr
      · subst hr; exact ⟨rfl, rfl, rfl, rfl⟩
      · rcases hrec with ⟨_, hrec⟩ | ⟨_, hrec⟩ <;> exact ih hrec r hr

lemma bisectLoop_iters {func : ℚ → ℚ} {tol : ℚ} {fuel : ℕ} :
    ∀ {i : ℕ} {a b c_old root : ℚ} {trace : List IterationRecord},
      bisectLoop func tol fuel i a b c_old = Except.ok (root, trace) →
      ∀ (k : ℕ) (hk : k < trace.length), (trace.get ⟨k, hk⟩).iteration = i + 1 + k := by
  induction fuel with
  | zero => intro i a b c_old root trace h; simp [bisectLoop] at h
  | succ fuel ih =>
    intro i a b c_old root trace h
    rcases bisectLoop_ok_succ h with ⟨_, htr, _⟩ | ⟨_, _, rest, htr, hrec⟩
    · subst htr
      intro k hk
      simp only [List.length_singleton] at hk
      have hk0 : k = 0 := by omega
      subst hk0
      rfl
    · subst htr
      intro k hk
      cases k with
      | zero => rfl
      | succ k =>
        rw [List.get_cons_succ]
        have hk' : k < rest.length := by
          simp only [List.length_cons] at hk
          omega
        rcases hrec with ⟨_, hrec⟩ | ⟨_, hrec⟩ <;>
          · rw [ih hrec k hk']
            omega

lemma bisectLoop_chain {func : ℚ → ℚ} {tol : ℚ} {fuel : ℕ} :
    ∀ {i : ℕ} {a b c_old root : ℚ} {trace : List IterationRecord},
      bisectLoop func tol fuel i a b c_old = Except.ok (root, trace) →
      List.Chain' StepFrom trace := by
  induction fuel with
  | zero => intro i a b c_old root trace h; simp [bisectLoop] at h
  | succ fuel ih =>
    intro i a b c_old root trace h
    rcases bisectLoop_ok_succ h with ⟨_, htr, _⟩ | ⟨_, _, rest, htr, hrec⟩
    · subst htr; exact List.chain'_singleton _
    · subst htr
      rcases hrec with ⟨_, hrec⟩ | ⟨_, hrec⟩
      · refine List.chain'_cons'.mpr ⟨?_, ih hrec⟩
        intro y hy
        rw [bisectLoop_head hrec, Option.mem_def, Option.some.injEq] at hy
        subst hy
        exact ⟨Or.inl ⟨rfl, rfl⟩, by simp [mkRecord, relError]⟩
      · refine List.chain'_cons'.mpr ⟨?_, ih hrec⟩
        intro y hy
        rw [bisectLoop_head hrec, Option.mem_def, Option.some.injEq] at hy
        subst hy
        exact ⟨Or.inr ⟨rfl, rfl⟩, by simp [mkRecord, relError]⟩

lemma bisectLoop_ab_le {func : ℚ → ℚ} {tol : ℚ} {fuel : ℕ} :
    ∀ {i : ℕ} {a b c_old root : ℚ} {trace : List IterationRecord},
      a ≤ b →
      bisectLoop func tol fuel i a b c_old = Except.ok (root, trace) →
      ∀ r ∈ trace, r.a ≤ r.b := by
  induction fuel with
  | zero => intro i a b c_old root trace _ h; simp [bisectLoop] at h
  | succ fuel ih =>
    intro i a b c_old root trace hab h
    rcases bisectLoop_ok_succ h with ⟨_, htr, _⟩ | ⟨_, _, rest, htr, hrec⟩
    · subst htr
      intro r hr
      simp only [List.mem_singleton] at hr
      subst hr
      exact hab
    · subst htr
      intro r hr
      rcases List.mem_cons.mp hr with hr | hr
      · subst hr; exact hab
      · rcases hrec with ⟨_, hrec⟩ | ⟨_, hrec⟩
        · exact ih (by linarith) hrec r hr
        · exact ih (by linarith) hrec r hr

lemma bisectLoop_sign {func : ℚ → ℚ} {tol : ℚ} {fuel : ℕ} :
    ∀ {i : ℕ} {a b c_old root : ℚ} {trace : List IterationRecord},
      func a * func b < 0 → 0 < tol →
      bisectLoop func tol fuel i a b c_old = Except.ok (root, trace) →
      ∀ r ∈ trace, func r.a * func r.b < 0 := by
  induction fuel with
  | zero => intro i a b c_old root trace _ _ h; simp [bisectLoop] at h
  | succ fuel ih =>
    intro i a b c_old root trace hab htol h
    rcases bisectLoop_ok_succ h with ⟨_, htr, _⟩ | ⟨hnc, _, rest, htr, hrec⟩
    · subst htr
      intro r hr
      simp only [List.mem_singleton] at hr
      subst hr
      exact hab
    · subst htr
      intro r hr
      rcases List.mem_cons.mp hr with hr | hr
      · subst hr; exact hab
      · push_neg at hnc
        have hfc : func ((a + b) / 2) ≠ 0 := by
          intro h0
          rw [h0] at hnc
          simp only [abs_zero] at hnc
          exact absurd htol (not_lt.mpr hnc.1)
        rcases hrec with ⟨hs, hrec⟩ | ⟨hs, hrec⟩
        · exact ih hs htol hrec r hr
        · have hfa : func a ≠ 0 := by
            intro h0
            rw [h0, zero_mul] at hab
            exact absurd hab (lt_irrefl 0)
          have hpos : 0 < func a * func ((a + b) / 2) :=
            lt_of_le_of_ne (not_lt.mp hs) (Ne.symm (mul_ne_zero hfa hfc))
          have hcb : func ((a + b) / 2) * func b < 0 := by
            rcases mul_neg_iff.mp hab with ⟨ha1, hb1⟩ | ⟨ha1, hb1⟩ <;>
              rcases mul_pos_iff.mp hpos with ⟨ha2, hc2⟩ | ⟨ha2, hc2⟩
            · exact mul_neg_of_pos_of_neg hc2 hb1
            · linarith
            · linarith
            · exact mul_neg_of_neg_of_pos hc2 hb1
          exact ih hcb htol hrec r hr

lemma bisectLoop_bounds {func : ℚ → ℚ} {tol : ℚ} {fuel : ℕ} :
    ∀ {i : ℕ} {a b c_old root : ℚ} {trace : List IterationRecord} {lo hi : ℚ},
      lo ≤ a → a ≤ hi → lo ≤ b → b ≤ hi →
      bisectLoop func tol fuel i a b c_old = Except.ok (root, trace) →
      (lo ≤ root ∧ root ≤ hi) ∧ ∀ r ∈ trace, lo ≤ r.c ∧ r.c ≤ hi := by
  induction fuel with
  | zero => intro i a b c_old root trace lo hi _ _ _ _ h; simp [bisectLoop] at h
  | succ fuel ih =>
    intro i a b c_old root trace lo hi h1 h2 h3 h4 h
    rcases bisectLoop_ok_succ h with ⟨hroot, htr, _⟩ | ⟨_, _, rest, htr, hrec⟩
    · subst htr
      subst hroot
      refine ⟨⟨by linarith, by linarith⟩, ?_⟩
      intro r hr
      simp only [List.mem_singleton] at hr
      subst hr
      exact ⟨show lo ≤ (a + b) / 2 by linarith, show (a + b) / 2 ≤ hi by linarith⟩
    · subst htr
      have hc1 : lo ≤ (a + b) / 2 := by linarith
      have hc2 : (a + b) / 2 ≤ hi := by linarith
      rcases hrec with ⟨_, hrec⟩ | ⟨_, hrec⟩
      · obtain ⟨hroot, hrest⟩ := ih h1 h2 hc1 hc2 hrec
        refine ⟨hroot, ?_⟩
        intro r hr
        rcases List.mem_cons.mp hr with hr | hr
        · subst hr; exact ⟨hc1, hc2⟩
        · exact hrest r hr
      · obtain ⟨hroot, hrest⟩ := ih hc1 hc2 h3 h4 hrec
        refine ⟨hroot, ?_⟩
        intro r hr
        rcases List.mem_cons.mp hr with hr | hr
        · subst hr; exact ⟨hc1, hc2⟩
        · exact hrest r hr

/-- Claim C3: whenever `func(low) * func(high) >= 0` the solver rejects the
bracket (the `InvalidBracket` outcome), producing no root estimate and an
empty trace, before any iteration runs and regardless of the tolerance and
iteration-budget arguments. -/
theorem C3_invalid_bracket (func : ℚ → ℚ) (a b tolerance : ℚ)
    (max_iterations : ℤ) (h : 0 ≤ func a * func b) :
    bisection_method func a b tolerance max_iterations = Except.ok (none, []) := by
  rw [bisection_method, if_pos (ge_iff_le.mpr h)]

/-- Witness for C3 at the source's own example: the cubic `f` on the
zero-width bracket `[0, 0]`, where `f(0) * f(0) = 36 ≥ 0`. -/
theorem C3_invalid_bracket_witness :
    0 ≤ f 0 * f 0 ∧
      bisection_method f 0 0 (1 / 1000000) 50 = Except.ok (none, []) :=
  ⟨by norm_num [f], C3_invalid_bracket f 0 0 (1 / 1000000) 50 (by norm_num [f])⟩

/-- Claim C9: in every run that returns a root, every iteration starts from
endpoints whose function values have strictly opposite signs, provided the
tolerance is positive (the bisection update preserves the sign change
because an update only happens when `|func(c)| ≥ tolerance > 0`). -/
theorem C9_sign_change_invariant (func : ℚ → ℚ) (a b tolerance : ℚ)
    (max_iterations : ℤ) (root : ℚ) (trace : List IterationRecord)
    (htol : 0 < tolerance)
    (h : bisection_method func a b tolerance max_iterations =
      Except.ok (some root, trace)) :
    ∀ r ∈ trace, func r.a * func r.b < 0 := by
  obtain ⟨hbr, _, hloop⟩ := bisection_method_ok_inv h
  exact bisectLoop_sign hbr htol hloop

/-- Claim C10: every midpoint recorded in the trace, and the returned root
estimate, lies within the closed interval spanned by the initial endpoints. -/
theorem C10_estimates_within_bracket (func : ℚ → ℚ) (a b tolerance : ℚ)
    (max_iterations : ℤ) (root : ℚ) (trace : List IterationRecord)
    (h : bisection_method func a b tolerance max_iterations =
      Except.ok (some root, trace)) :
    (min a b ≤ root ∧ root ≤ max a b) ∧
      ∀ r ∈ trace, min a b ≤ r.c ∧ r.c ≤ max a b := by
  obtain ⟨_, _, hloop⟩ := bisection_method_ok_inv h
  exact bisectLoop_bounds (min_le_left a b) (le_max_left a b) (min_le_right a b)
    (le_max_right a b) hloop

/-- Claim C8: the trace of a run that returns a root is nonempty, its length
is the number of iterations executed and is at most `maxIterations`, and the
recorded iteration indices are the contiguous integers `1, 2, ...`. -/
theorem C8_trace_indices (func : ℚ → ℚ) (a b tolerance : ℚ) (max_iterations : ℤ)
    (root : ℚ) (trace : List IterationRecord)
    (h : bisection_method func a b tolerance max_iterations =
      Except.ok (some root, trace)) :
    0 < trace.length ∧ (trace.length : ℤ) ≤ max_iterations ∧
      ∀ (k : ℕ) (hk : k < trace.length), (trace.get ⟨k, hk⟩).iteration = k + 1 := by
  obtain ⟨_, hm, hloop⟩ := bisection_method_ok_inv h
  obtain ⟨hpos, hlen⟩ := bisectLoop_len hloop
  have htn : (max_iterations.toNat : ℤ) = max_iterations := Int.toNat_of_nonneg hm.le
  refine ⟨hpos, by omega, ?_⟩
  intro k hk
  rw [bisectLoop_iters hloop k hk]
  omega

lemma bisectLoop_total {func : ℚ → ℚ} {tol : ℚ} {fuel : ℕ} :
    ∀ (i : ℕ) (a b c_old : ℚ), fuel ≠ 0 →
      bisectLoop func tol fuel i a b c_old = Except.error Fault.divisionByZero ∨
        ∃ root trace, bisectLoop func tol fuel i a b c_old = Except.ok (root, trace) := by
  induction fuel with
  | zero => intro i a b c_old h; exact absurd rfl h
  | succ fuel ih =>
    intro i a b c_old _
    rw [bisectLoop]
    split_ifs with h0 hconv hfuel hsign
    · exact Or.inl rfl
    · exact Or.inr ⟨_, _, rfl⟩
    · exact Or.inr ⟨_, _, rfl⟩
    · rcases ih (i + 1) a ((a + b) / 2) ((a + b) / 2) hfuel with hdiv | ⟨root, trace, hok⟩
      · rw [hdiv]; exact Or.inl rfl
      · rw [hok]; exact Or.inr ⟨_, _, rfl⟩
    · rcases ih (i + 1) ((a + b) / 2) b ((a + b) / 2) hfuel with hdiv | ⟨root, trace, hok⟩
      · rw [hdiv]; exact Or.inl rfl
      · rw [hok]; exact Or.inr ⟨_, _, rfl⟩

lemma bisection_method_total {func : ℚ → ℚ} {a b tolerance : ℚ}
    {max_iterations : ℤ} (hbr : func a * func b < 0) (hm : 0 < max_iterations) :
    bisection_method func a b tolerance max_iterations =
        Except.error Fault.divisionByZero ∨
      ∃ root trace,
        bisection_method func a b tolerance max_iterations =
          Except.ok (some root, trace) := by
  rw [bisection_method, if_neg (not_le.mpr hbr), if_neg (not_le.mpr hm)]
  have hfz : max_iterations.toNat ≠ 0 := by omega
  rcases bisectLoop_total 0 a b a hfz with hdiv | ⟨root, trace, hok⟩
  · rw [hdiv]; exact Or.inl rfl
  · rw [hok]; exact Or.inr ⟨root, trace, rfl⟩

lemma bisection_ok_facts (func : ℚ → ℚ) (a b tolerance : ℚ)
    (max_iterations : ℤ) (root : ℚ) (trace : List IterationRecord)
    (d : IterationRecord)
    (h : bisection_method func a b tolerance max_iterations =
      Except.ok (some root, trace)) :
    0 < trace.length ∧ (trace.length : ℤ) ≤ max_iterations ∧
      root = (trace.getLastD d).c ∧
      (|func root| < tolerance ∨ (trace.getLastD d).error < tolerance ∨
        (trace.length : ℤ) = max_iterations) := by
  obtain ⟨_, hm, hloop⟩ := bisection_method_ok_inv h
  obtain ⟨hpos, hlen⟩ := bisectLoop_len hloop
  have htn : (max_iterations.toNat : ℤ) = max_iterations := Int.toNat_of_nonneg hm.le
  have hroot := bisectLoop_root d hloop
  have hmem := getLastD_mem_self (List.length_pos.mp hpos) d
  have hfc : (trace.getLastD d).f_c = func (trace.getLastD d).c :=
    (bisectLoop_fields hloop _ hmem).2.2.2
  refine ⟨hpos, by omega, hroot, ?_⟩
  rcases bisectLoop_last_conv d hloop with hc | hl
  · rcases hc with hc | hc
    · rw [hfc, ← hroot] at hc
      exact Or.inl hc
    · exact Or.inr (Or.inl hc)
  · exact Or.inr (Or.inr (by omega))

/-- Claim C1 (amended): for every bracket whose endpoint values have
strictly opposite signs, every tolerance, and every positive iteration
budget, the solver either aborts with the division-by-zero fault (a midpoint
after the first iteration is exactly zero — the unhandled condition of C4)
or terminates within `maxIterations` iterations and returns the last
recorded midpoint, which satisfies `|func(c)| < tolerance` or final relative
error `< tolerance`, or else the iteration budget was exhausted (the claim
as stated omits both the fault and the exhaustion cases). -/
theorem C1_converges_or_exhausts (func : ℚ → ℚ) (a b tolerance : ℚ)
    (max_iterations : ℤ) (d : IterationRecord)
    (hbr : func a * func b < 0) (hm : 0 < max_iterations) :
    bisection_method func a b tolerance max_iterations =
        Except.error Fault.divisionByZero ∨
      ∃ root trace,
        bisection_method func a b tolerance max_iterations =
          Except.ok (some root, trace) ∧
        0 < trace.length ∧ (trace.length : ℤ) ≤ max_iterations ∧
        root = (trace.getLastD d).c ∧
        (|func root| < tolerance ∨ (trace.getLastD d).error < tolerance ∨
          (trace.length : ℤ) = max_iterations) := by
  rcases bisection_method_total hbr hm with hdiv | ⟨root, trace, hok⟩
  · exact Or.inl hdiv
  · exact Or.inr ⟨root, trace, hok,
      bisection_ok_facts func a b tolerance max_iterations root trace d hok⟩

/-- Claim C7 (amended): when no recorded iteration satisfies the convergence
check, the run uses the whole iteration budget and still returns the last
computed midpoint as a best-effort estimate (the returned value itself does
not distinguish this exhausted outcome from a converged one). -/
theorem C7_exhausted_returns_last (func : ℚ → ℚ) (a b tolerance : ℚ)
    (max_iterations : ℤ) (root : ℚ) (trace : List IterationRecord)
    (d : IterationRecord)
    (h : bisection_method func a b tolerance max_iterations =
      Except.ok (some root, trace))
    (hnc : ∀ r ∈ trace, ¬(|r.f_c| < tolerance ∨ r.error < tolerance)) :
    (trace.length : ℤ) = max_iterations ∧ root = (trace.getLastD d).c := by
  obtain ⟨_, hm, hloop⟩ := bisection_method_ok_inv h
  obtain ⟨hpos, _⟩ := bisectLoop_len hloop
  have hmem := getLastD_mem_self (List.length_pos.mp hpos) d
  rcases bisectLoop_last_conv d hloop with hc | hl
  · exact absurd hc (hnc _ hmem)
  · have htn : (max_iterations.toNat : ℤ) = max_iterations := Int.toNat_of_nonneg hm.le
    exact ⟨by omega, bisectLoop_root d hloop⟩

/-- Claim C2: for runs started on an ordered bracket (`low ≤ high`), each
successive recorded bracket is a subset of the previous one and its width is
exactly half the previous width. -/
theorem C2_bracket_halving (func : ℚ → ℚ) (a b tolerance : ℚ)
    (max_iterations : ℤ) (root : ℚ) (trace : List IterationRecord) (hab : a ≤ b)
    (h : bisection_method func a b tolerance max_iterations =
      Except.ok (some root, trace))
    (k : ℕ) (hk : k + 1 < trace.length) :
    (trace.get ⟨k, Nat.lt_of_succ_lt hk⟩).a ≤ (trace.get ⟨k + 1, hk⟩).a ∧
      (trace.get ⟨k + 1, hk⟩).b ≤ (trace.get ⟨k, Nat.lt_of_succ_lt hk⟩).b ∧
      (trace.get ⟨k + 1, hk⟩).b - (trace.get ⟨k + 1, hk⟩).a =
        ((trace.get ⟨k, Nat.lt_of_succ_lt hk⟩).b -
          (trace.get ⟨k, Nat.lt_of_succ_lt hk⟩).a) / 2 := by
  obtain ⟨_, _, hloop⟩ := bisection_method_ok_inv h
  have hstep := (List.chain'_iff_get.mp (bisectLoop_chain hloop)) k (by omega)
  have hrab : (trace.get ⟨k, Nat.lt_of_succ_lt hk⟩).a ≤
      (trace.get ⟨k, Nat.lt_of_succ_lt hk⟩).b :=
    bisectLoop_ab_le hab hloop _ (List.get_mem _ _ _)
  have hrc : (trace.get ⟨k, Nat.lt_of_succ_lt hk⟩).c =
      ((trace.get ⟨k, Nat.lt_of_succ_lt hk⟩).a +
        (trace.get ⟨k, Nat.lt_of_succ_lt hk⟩).b) / 2 :=
    (bisectLoop_fields hloop _ (List.get_mem _ _ _)).1
  obtain ⟨hbrk, _⟩ := hstep
  rcases hbrk with ⟨h1, h2⟩ | ⟨h1, h2⟩
  · refine ⟨?_, ?_, ?_⟩
    · rw [h1]
    · rw [h2, hrc]; linarith
    · rw [h1, h2, hrc]; ring
  · refine ⟨?_, ?_, ?_⟩
    · rw [h1, hrc]; linarith
    · rw [h2]
    · rw [h1, h2, hrc]; ring

/-- Claim C6: the first recorded relative error is the sentinel `100`, and
every later record's error is `|(c - c_prev) / c| * 100` with `c_prev` the
midpoint of the immediately preceding record. -/
theorem C6_relative_error (func : ℚ → ℚ) (a b tolerance : ℚ) (max_iterations : ℤ)
    (root : ℚ) (trace : List IterationRecord)
    (h : bisection_method func a b tolerance max_iterations =
      Except.ok (some root, trace)) :
    (∀ h0 : 0 < trace.length, (trace.get ⟨0, h0⟩).error = 100) ∧
      ∀ (k : ℕ) (hk : k + 1 < trace.length),
        (trace.get ⟨k + 1, hk⟩).error =
          |((trace.get ⟨k + 1, hk⟩).c - (trace.get ⟨k, Nat.lt_of_succ_lt hk⟩).c) /
            (trace.get ⟨k + 1, hk⟩).c| * 100 := by
  obtain ⟨_, _, hloop⟩ := bisection_method_ok_inv h
  constructor
  · intro h0
    rw [bisectLoop_first hloop h0]
    simp [mkRecord, relError]
  · intro k hk
    exact ((List.chain'_iff_get.mp (bisectLoop_chain hloop)) k (by omega)).2

/-- Claim C1 as stated fails on the code: with `func(x) = x`, the bracket
`(-1, 2)` whose endpoint values have strictly opposite signs, positive
tolerance `1/10` and positive budget `1`, the solver returns the midpoint
`1/2`, yet `|func(1/2)| = 1/2` is not below the tolerance and the recorded
relative error `100` is not below the tolerance either. -/
theorem C1_counterexample :
    (fun x : ℚ => x) (-1) * (fun x : ℚ => x) 2 < 0 ∧ (0 : ℚ) < 1 / 10 ∧
      (0 : ℤ) < 1 ∧
      bisection_method (fun x : ℚ => x) (-1) 2 (1 / 10) 1 =
        Except.ok (some (1 / 2), [⟨1, -1, 2, 1 / 2, -1, 2, 1 / 2, 100⟩]) ∧
      ¬(|(fun x : ℚ => x) (1 / 2)| < 1 / 10) ∧ ¬((100 : ℚ) < 1 / 10) := by
  refine ⟨by norm_num, by norm_num, by norm_num, ?_, by norm_num [abs_lt], by norm_num⟩
  norm_num [bisection_method, bisectLoop, mkRecord, relError, abs_lt, Except.map]

/-- Witness for C1 (amended) on the cubic `f` over `[0, 2]` (where
`f(0) * f(2) = -24 < 0`) with tolerance `1/2` and budget `2`. -/
theorem C1_converges_or_exhausts_witness :
    bisection_method f 0 2 (1 / 2) 2 = Except.error Fault.divisionByZero ∨
      ∃ root trace,
        bisection_method f 0 2 (1 / 2) 2 = Except.ok (some root, trace) ∧
        0 < trace.length ∧ (trace.length : ℤ) ≤ 2 ∧
        root = (trace.getLastD ⟨0, 0, 0, 0, 0, 0, 0, 0⟩).c ∧
        (|f root| < 1 / 2 ∨
          (trace.getLastD ⟨0, 0, 0, 0, 0, 0, 0, 0⟩).error < 1 / 2 ∨
          (trace.length : ℤ) = 2) :=
  C1_converges_or_exhausts f 0 2 (1 / 2) 2 ⟨0, 0, 0, 0, 0, 0, 0, 0⟩
    (by norm_num [f]) (by norm_num)

/-- Witness for C2 on the concrete three-iteration run `idTrace`
(`func(x) = x`, bracket `(-1, 2)`, tolerance `1/10`, budget `3`), comparing
the first two recorded brackets. -/
theorem C2_bracket_halving_witness :
    (idTrace.get ⟨0, by norm_num [idTrace]⟩).a ≤
        (idTrace.get ⟨0 + 1, by norm_num [idTrace]⟩).a ∧
      (idTrace.get ⟨0 + 1, by norm_num [idTrace]⟩).b ≤
        (idTrace.get ⟨0, by norm_num [idTrace]⟩).b ∧
      (idTrace.get ⟨0 + 1, by norm_num [idTrace]⟩).b -
          (idTrace.get ⟨0 + 1, by norm_num [idTrace]⟩).a =
        ((idTrace.get ⟨0, by norm_num [idTrace]⟩).b -
          (idTrace.get ⟨0, by norm_num [idTrace]⟩).a) / 2 :=
  C2_bracket_halving (fun x : ℚ => x) (-1) 2 (1 / 10) 3 (1 / 8) idTrace
    (by norm_num)
    (by norm_num [bisection_method, bisectLoop, mkRecord, relError, abs_lt,
      Except.map, idTrace])
    0 (by norm_num [idTrace])

/-- Witness for C6 on the concrete run `idTrace`: the second record's error
`300` equals `|(c2 - c1) / c2| * 100` for the recorded midpoints. -/
theorem C6_relative_error_witness :
    (idTrace.get ⟨0 + 1, by norm_num [idTrace]⟩).error =
      |((idTrace.get ⟨0 + 1, by norm_num [idTrace]⟩).c -
          (idTrace.get ⟨0, Nat.lt_of_succ_lt (by norm_num [idTrace])⟩).c) /
        (idTrace.get ⟨0 + 1, by norm_num [idTrace]⟩).c| * 100 :=
  (C6_relative_error (fun x : ℚ => x) (-1) 2 (1 / 10) 3 (1 / 8) idTrace
    (by norm_num [bisection_method, bisectLoop, mkRecord, relError, abs_lt,
      Except.map, idTrace])).2 0 (by norm_num [idTrace])

/-- Claim C7's distinguishability conjunct fails on the code: a run that
converges at its first iteration (tolerance `6/10`) and a run that exhausts
a budget of one iteration without converging (tolerance `1/10`) return the
very same result value, so the exhausted outcome is not distinguishable from
the converged one in the returned value. -/
theorem C7_counterexample :
    bisection_method (fun x : ℚ => x) (-1) 2 (6 / 10) 2 =
        bisection_method (fun x : ℚ => x) (-1) 2 (1 / 10) 1 ∧
      (|(1 : ℚ) / 2| < 6 / 10) ∧ ¬(|(1 : ℚ) / 2| < 1 / 10) ∧
      ¬((100 : ℚ) < 1 / 10) := by
  refine ⟨?_, by rw [abs_lt]; norm_num, by norm_num [abs_lt], by norm_num⟩
  norm_num [bisection_method, bisectLoop, mkRecord, relError, abs_lt, Except.map]

/-- Witness for C7 (amended): the one-iteration exhausted run on
`func(x) = x` with tolerance `1/10` uses its whole budget and returns the
last recorded midpoint `1/2`. -/
theorem C7_exhausted_returns_last_witness :
    (([(⟨1, -1, 2, 1 / 2, -1, 2, 1 / 2, 100⟩ : IterationRecord)]).length : ℤ) = 1 ∧
      (1 / 2 : ℚ) = (([(⟨1, -1, 2, 1 / 2, -1, 2, 1 / 2, 100⟩ : IterationRecord)]).getLastD
        ⟨0, 0, 0, 0, 0, 0, 0, 0⟩).c :=
  C7_exhausted_returns_last (fun x : ℚ => x) (-1) 2 (1 / 10) 1 (1 / 2)
    [⟨1, -1, 2, 1 / 2, -1, 2, 1 / 2, 100⟩] ⟨0, 0, 0, 0, 0, 0, 0, 0⟩
    (by norm_num [bisection_method, bisectLoop, mkRecord, relError, abs_lt, Except.map])
    (by
      intro r hr
      simp only [List.mem_singleton] at hr
      subst hr
      norm_num [abs_lt])

/-- Witness for C8 on the concrete run `idTrace`: length `3 ≤ 3` and the
third record carries iteration index `3`. -/
theorem C8_trace_indices_witness :
    0 < idTrace.length ∧ (idTrace.length : ℤ) ≤ 3 ∧
      ∀ (k : ℕ) (hk : k < idTrace.length), (idTrace.get ⟨k, hk⟩).iteration = k + 1 :=
  C8_trace_indices (fun x : ℚ => x) (-1) 2 (1 / 10) 3 (1 / 8) idTrace
    (by norm_num [bisection_method, bisectLoop, mkRecord, relError, abs_lt,
      Except.map, idTrace])

/-- Witness for C9 on the concrete run `idTrace`: the second recorded
bracket `(-1, 1/2)` still has function values of opposite signs under
`func(x) = x`. -/
theorem C9_sign_change_invariant_witness :
    (fun x : ℚ => x) ((⟨2, -1, 1 / 2, -1 / 4, -1, 1 / 2, -1 / 4, 300⟩ :
        IterationRecord).a) *
      (fun x : ℚ => x) ((⟨2, -1, 1 / 2, -1 / 4, -1, 1 / 2, -1 / 4, 300⟩ :
        IterationRecord).b) < 0 :=
  C9_sign_change_invariant (fun x : ℚ => x) (-1) 2 (1 / 10) 3 (1 / 8) idTrace
    (by norm_num)
    (by norm_num [bisection_method, bisectLoop, mkRecord, relError, abs_lt,
      Except.map, idTrace])
    ⟨2, -1, 1 / 2, -1 / 4, -1, 1 / 2, -1 / 4, 300⟩
    (List.mem_cons_of_mem _ (List.mem_cons_self _ _))

/-- Witness for C10 on the concrete run `idTrace`: the returned root `1/8`
lies in the interval spanned by the initial endpoints `-1` and `2`. -/
theorem C10_estimates_within_bracket_witness :
    min (-1 : ℚ) 2 ≤ 1 / 8 ∧ (1 / 8 : ℚ) ≤ max (-1 : ℚ) 2 :=
  (C10_estimates_within_bracket (fun x : ℚ => x) (-1) 2 (1 / 10) 3 (1 / 8) idTrace
    (by norm_num [bisection_method, bisectLoop, mkRecord, relError, abs_lt,
      Except.map, idTrace])).1

/-- Claim C4: the relative-error division by a zero midpoint is not
recovered: with `func(x) = x` on the bracket `(-3, 1)`, the second
iteration's midpoint is `0` and the run aborts with the division-by-zero
fault (the Python code raises an unhandled `ZeroDivisionError`), instead of
substituting a sentinel error value. -/
theorem C4_division_fault :
    bisection_method (fun x : ℚ => x) (-3) 1 (1 / 1000000) 3 =
      Except.error Fault.divisionByZero := by
  norm_num [bisection_method, bisectLoop, mkRecord, relError, abs_lt, Except.map]

/-- Claim C5: the code performs no configuration validation: with the
non-positive tolerance `-1` and a valid bracket an iteration still runs and
a result is returned (no rejection before iterating), and with the
non-positive budget `0` and a valid bracket the run aborts with the
name-error fault (`c` unbound at `return`) rather than a contract-violation
condition. -/
theorem C5_no_validation :
    bisection_method (fun x : ℚ => x) (-1) 2 (-1) 1 =
        Except.ok (some (1 / 2), [⟨1, -1, 2, 1 / 2, -1, 2, 1 / 2, 100⟩]) ∧
      bisection_method (fun x : ℚ => x) (-1) 2 (1 / 10) 0 =
        Except.error Fault.nameError := by
  constructor <;>
    norm_num [bisection_method, bisectLoop, mkRecord, relError, abs_lt, Except.map]
